import Mathlib

/-!
Verification of the ARM64 instruction-lowering backend
(runtime/vm/intermediate_language_arm64.cc).

The emitted instruction sequences relevant to the checked claims are given a
shallow embedding: 64-bit registers are modelled as integers kept in the
signed two's-complement range, with an explicit wrap at every machine write;
condition flags and condition codes are modelled explicitly; emission paths
that can transfer control to a deoptimization guard return Option values
(none = the guard is taken).

Tagged small integers (Smi) on this 64-bit target use a one-bit tag:
a Smi with value v is represented as the machine word 2*v, so the value
range is -(2^62) .. 2^62 - 1.
-/

namespace Arm64IL

/-- Reduce an integer to the signed 64-bit two's-complement range,
the value a 64-bit register holds after a machine write. -/
def wrap64 (v : Int) : Int := (v + 2 ^ 63) % 2 ^ 64 - 2 ^ 63

/-- Unsigned interpretation of a register value (used by the carry flag). -/
def toU64 (v : Int) : Int := v % 2 ^ 64

/-- Arithmetic shift right of a signed register value. -/
def asr (v : Int) (n : Nat) : Int := v / 2 ^ n

/-- The smulh instruction: upper 64 bits of the signed 128-bit product. -/
def smulh (a b : Int) : Int := a * b / 2 ^ 64

/-- The sdiv instruction: truncating signed division; division by zero
yields 0 and the quotient wraps (INT64_MIN divided by -1). -/
def sdiv64 (a b : Int) : Int := if b = 0 then 0 else wrap64 (a.tdiv b)

/-- Smallest tagged small integer on this 64-bit target. -/
def smiMin : Int := -(2 ^ 62)

/-- Largest tagged small integer on this 64-bit target. -/
def smiMax : Int := 2 ^ 62 - 1

/-- The representable range of tagged small integers. -/
def inSmiRange (v : Int) : Prop := smiMin ≤ v ∧ v ≤ smiMax

instance (v : Int) : Decidable (inSmiRange v) :=
  inferInstanceAs (Decidable (smiMin ≤ v ∧ v ≤ smiMax))

/-- SmiTag: shift left by the one-bit tag (kSmiTagShift == 1). -/
def smiTag (v : Int) : Int := wrap64 (2 * v)

/-- The N, Z, C, V condition flags. -/
structure Flags where
  n : Bool
  z : Bool
  c : Bool
  v : Bool
deriving DecidableEq

/-- Condition codes of the target, as used by conditional branches and
conditional selects. -/
inductive Cond where
  | EQ | NE | CS | CC | MI | PL | VS | VC | HI | LS | GE | LT | GT | LE
deriving DecidableEq

/-- Truth of a condition code on a flags state (architecture definition). -/
def condHolds (c : Cond) (f : Flags) : Bool :=
  match c with
  | .EQ => f.z
  | .NE => !f.z
  | .CS => f.c
  | .CC => !f.c
  | .MI => f.n
  | .PL => !f.n
  | .VS => f.v
  | .VC => !f.v
  | .HI => f.c && !f.z
  | .LS => !f.c || f.z
  | .GE => f.n == f.v
  | .LT => f.n != f.v
  | .GT => !f.z && (f.n == f.v)
  | .LE => f.z || (f.n != f.v)

/-- NegateCondition from the source: the ten handled codes are swapped
pairwise; the default case is UNREACHABLE and returns EQ. -/
def NegateCondition (c : Cond) : Cond :=
  match c with
  | .EQ => .NE
  | .NE => .EQ
  | .LT => .GE
  | .LE => .GT
  | .GT => .LE
  | .GE => .LT
  | .CC => .CS
  | .LS => .HI
  | .HI => .LS
  | .CS => .CC
  | _ => .EQ

/-- The ten condition codes handled by NegateCondition. -/
def handledCondition (c : Cond) : Bool :=
  match c with
  | .EQ | .NE | .LT | .LE | .GT | .GE | .CC | .LS | .HI | .CS => true
  | _ => false

/-- The label triple passed to the branch emitter. -/
structure BranchLabels where
  trueLabel : Nat
  falseLabel : Nat
  fallThrough : Nat
deriving DecidableEq

/-- The branch instructions the branch emitter can produce. -/
inductive BrInstr where
  | condBr (c : Cond) (target : Nat)
  | br (target : Nat)
deriving DecidableEq

/-- EmitBranchOnCondition from the source: fall-through optimization on the
false label, otherwise branch on the negated condition with an optional
unconditional jump to the true label. -/
def EmitBranchOnCondition (trueCondition : Cond) (labels : BranchLabels) :
    List BrInstr :=
  if labels.fallThrough = labels.falseLabel then
    [.condBr trueCondition labels.trueLabel]
  else
    let falseCondition := NegateCondition trueCondition
    if labels.fallThrough ≠ labels.trueLabel then
      [.condBr falseCondition labels.falseLabel, .br labels.trueLabel]
    else
      [.condBr falseCondition labels.falseLabel]

/-- Execute a straight-line block of branches on a flags state: the first
taken branch decides the target, otherwise control falls through. -/
def runBranches (f : Flags) : List BrInstr → Nat → Nat
  | [], fallThrough => fallThrough
  | .br t :: _, _ => t
  | .condBr c t :: rest, fallThrough =>
      if condHolds c f then t else runBranches f rest fallThrough

lemma condHolds_NegateCondition (c : Cond) (f : Flags)
    (h : handledCondition c = true) :
    condHolds (NegateCondition c) f = ! condHolds c f := by
  rcases f with ⟨fn, fz, fc, fv⟩
  cases c <;> simp [handledCondition] at h <;>
    cases fn <;> cases fz <;> cases fc <;> cases fv <;> rfl

lemma NegateCondition_involution (c : Cond) (h : handledCondition c = true) :
    NegateCondition (NegateCondition c) = c := by
  cases c <;> simp_all [handledCondition, NegateCondition]

/-- Claim C10: NegateCondition returns the logical complement of each of the
ten handled condition codes (EQ, NE, LT, LE, GT, GE, CC, CS, HI, LS) — the
negated condition holds on a flags state exactly when the original does
not — and applying NegateCondition twice returns the original condition. -/
theorem NegateCondition_complement_and_involutive (c : Cond)
    (h : handledCondition c = true) :
    (∀ f : Flags, condHolds (NegateCondition c) f = ! condHolds c f) ∧
    NegateCondition (NegateCondition c) = c :=
  ⟨fun f => condHolds_NegateCondition c f h, NegateCondition_involution c h⟩

/-- Witness for C10 at the concrete condition LT and a concrete flags state. -/
theorem NegateCondition_complement_and_involutive_witness :
    condHolds (NegateCondition .LT) ⟨true, false, false, false⟩ =
      ! condHolds .LT ⟨true, false, false, false⟩ ∧
    NegateCondition (NegateCondition .LT) = .LT :=
  ⟨(NegateCondition_complement_and_involutive .LT (by decide)).1
      ⟨true, false, false, false⟩,
   (NegateCondition_complement_and_involutive .LT (by decide)).2⟩

/-- Claim C9: for a handled true-condition and any label triple,
EmitBranchOnCondition emits exactly one conditional branch on the true
condition when the fall-through equals the false label; otherwise one
conditional branch on the negated condition to the false label followed by
an unconditional jump to the true label exactly when the true label is not
the fall-through; and in all cases control reaches the true label iff the
condition holds, the false label otherwise. -/
theorem EmitBranchOnCondition_correct (tc : Cond) (labels : BranchLabels)
    (f : Flags) (h : handledCondition tc = true) :
    runBranches f (EmitBranchOnCondition tc labels) labels.fallThrough =
      (if condHolds tc f then labels.trueLabel else labels.falseLabel) ∧
    (labels.fallThrough = labels.falseLabel →
      EmitBranchOnCondition tc labels = [.condBr tc labels.trueLabel]) ∧
    (labels.fallThrough ≠ labels.falseLabel →
      EmitBranchOnCondition tc labels =
        .condBr (NegateCondition tc) labels.falseLabel ::
          (if labels.fallThrough ≠ labels.trueLabel
            then [.br labels.trueLabel] else [])) := by
  have hneg := condHolds_NegateCondition tc f h
  by_cases h1 : labels.fallThrough = labels.falseLabel
  · have hemit : EmitBranchOnCondition tc labels =
        [.condBr tc labels.trueLabel] := by
      simp [EmitBranchOnCondition, h1]
    refine ⟨?_, fun _ => hemit, fun hc => absurd h1 hc⟩
    rw [hemit]
    by_cases hc : condHolds tc f <;> simp [runBranches, hc, h1]
  · by_cases h2 : labels.fallThrough = labels.trueLabel
    · have hemit : EmitBranchOnCondition tc labels =
          [.condBr (NegateCondition tc) labels.falseLabel] := by
        unfold EmitBranchOnCondition
        rw [if_neg h1]
        simp [h2]
      refine ⟨?_, fun hc => absurd hc h1, fun _ => ?_⟩
      · rw [hemit]
        by_cases hc : condHolds tc f <;> simp [runBranches, hneg, hc, h2]
      · rw [hemit]; simp [h2]
    · have hemit : EmitBranchOnCondition tc labels =
          [.condBr (NegateCondition tc) labels.falseLabel,
            .br labels.trueLabel] := by
        simp [EmitBranchOnCondition, h1, h2]
      refine ⟨?_, fun hc => absurd hc h1, fun _ => ?_⟩
      · rw [hemit]
        by_cases hc : condHolds tc f <;> simp [runBranches, hneg, hc]
      · rw [hemit]; simp [h2]

/-- Witness for C9 at condition LT, labels (5, 7, 7) and flags with N set. -/
theorem EmitBranchOnCondition_correct_witness :
    runBranches ⟨true, false, false, false⟩
      (EmitBranchOnCondition .LT ⟨5, 7, 7⟩) 7 = 5 := by
  have h :=
    (EmitBranchOnCondition_correct .LT ⟨5, 7, 7⟩ ⟨true, false, false, false⟩
      (by decide)).1
  simpa [condHolds] using h

/-- A double operand as seen by fcmp: either NaN or an ordered finite
value (the payload stands in for any finite double). -/
inductive DoubleVal where
  | nan
  | fin (v : Int)
deriving DecidableEq

/-- The comparison token kinds handled by the double comparison paths. -/
inductive TokenKind where
  | kEQ | kNE | kLT | kGT | kLTE | kGTE
deriving DecidableEq

/-- TokenKindToDoubleCondition from the source. -/
def TokenKindToDoubleCondition : TokenKind → Cond
  | .kEQ => .EQ
  | .kNE => .NE
  | .kLT => .LT
  | .kGT => .GT
  | .kLTE => .LE
  | .kGTE => .GE

/-- Flags set by the fcmpd instruction: unordered (either operand NaN)
sets C and V; otherwise less / equal / greater set the standard patterns. -/
def fcmpd : DoubleVal → DoubleVal → Flags
  | .nan, _ => ⟨false, false, true, true⟩
  | _, .nan => ⟨false, false, true, true⟩
  | .fin a, .fin b =>
      if a < b then ⟨true, false, false, false⟩
      else if a = b then ⟨false, true, true, false⟩
      else ⟨false, false, true, false⟩

/-- The double branch path of EqualityCompareInstr::EmitBranchCode and
RelationalOpInstr::EmitBranchCode: fcmpd, then an extra branch to the false
label on VS (unless the true condition is NE), then the general
EmitBranchOnCondition protocol. Returns the label control reaches. -/
def doubleCompareBranchDest (kind : TokenKind) (a b : DoubleVal)
    (labels : BranchLabels) : Nat :=
  let f := fcmpd a b
  let tc := TokenKindToDoubleCondition kind
  if tc ≠ .NE ∧ f.v = true then labels.falseLabel
  else runBranches f (EmitBranchOnCondition tc labels) labels.fallThrough

/-- The boolean-materializing path of EqualityCompareInstr::EmitNativeCode
and RelationalOpInstr::EmitNativeCode: same comparison with labels
(is_true, is_false, fall-through = is_false), then the boolean constant of
the reached label is loaded. -/
def doubleCompareResult (kind : TokenKind) (a b : DoubleVal) : Bool :=
  doubleCompareBranchDest kind a b ⟨1, 0, 0⟩ == 1

/-- Claim C4: for every double comparison (equality and relational, both the
boolean-materializing path and the branch path), if either operand is NaN
the comparison evaluates to false for every operator except not-equal,
via the explicit extra branch on the unordered flag. -/
theorem doubleCompare_nan (kind : TokenKind) (a b : DoubleVal)
    (labels : BranchLabels) (h : a = .nan ∨ b = .nan) :
    doubleCompareResult kind a b = (kind == .kNE) ∧
    doubleCompareBranchDest kind a b labels =
      (if kind = .kNE then labels.trueLabel else labels.falseLabel) := by
  have hf : fcmpd a b = ⟨false, false, true, true⟩ := by
    rcases h with rfl | rfl
    · cases b <;> rfl
    · cases a <;> rfl
  cases kind <;>
    simp [doubleCompareResult, doubleCompareBranchDest, hf,
      TokenKindToDoubleCondition]
  by_cases h1 : labels.fallThrough = labels.falseLabel
  · simp [EmitBranchOnCondition, h1, runBranches, condHolds]
  · by_cases h2 : labels.fallThrough = labels.trueLabel
    · unfold EmitBranchOnCondition
      rw [if_neg h1]
      simp [h2, runBranches, condHolds, NegateCondition]
    · unfold EmitBranchOnCondition
      rw [if_neg h1]
      simp [h2, runBranches, condHolds, NegateCondition]

/-- Witness for C4: NaN compared with 0 under kLT is false on both paths. -/
theorem doubleCompare_nan_witness :
    doubleCompareResult .kLT .nan (.fin 0) = false ∧
    doubleCompareBranchDest .kLT .nan (.fin 0) ⟨3, 4, 4⟩ = 4 := by
  have h := doubleCompare_nan .kLT .nan (.fin 0) ⟨3, 4, 4⟩ (Or.inl rfl)
  simpa using h

/-- An operand location bound to either an embedded Smi constant or a
register holding a tagged Smi; the payload is the untagged value. -/
inductive SmiLoc where
  | constant (v : Int)
  | reg (v : Int)
deriving DecidableEq

/-- The untagged Smi value of the operand. -/
def SmiLoc.value : SmiLoc → Int
  | .constant v => v
  | .reg v => v

/-- Flags produced by a 64-bit compare of two register values (both held in
signed range): N and Z from the wrapped difference, C from the unsigned
comparison, V when the signed difference overflows. -/
def cmpFlags (a b : Int) : Flags where
  n := decide (wrap64 (a - b) < 0)
  z := decide (wrap64 (a - b) = 0)
  c := decide (toU64 b ≤ toU64 a)
  v := decide (wrap64 (a - b) ≠ a - b)

/-- CheckArrayBoundInstr::EmitNativeCode: returns true iff the emitted code
transfers control to the array-bounds deopt guard. Both-constant checks are
resolved at compile time (either no code or an unconditional branch);
otherwise one unsigned compare against the tagged values decides. -/
def CheckArrayBoundDeopts (lengthLoc indexLoc : SmiLoc) : Bool :=
  match lengthLoc, indexLoc with
  | .constant l, .constant i =>
      if l > i ∧ i ≥ 0 then false else true
  | .reg l, .constant i =>
      condHolds .LS (cmpFlags (smiTag l) (smiTag i))
  | .constant l, .reg i =>
      condHolds .CS (cmpFlags (smiTag i) (smiTag l))
  | .reg l, .reg i =>
      condHolds .CS (cmpFlags (smiTag i) (smiTag l))

/-- Claim C2: for every index and length (tagged Smis, length non-negative),
the emitted bounds check takes the deopt guard iff the index is outside
[0, length); every negative index takes the guard and an in-range index
falls through. -/
theorem CheckArrayBound_correct (lengthLoc indexLoc : SmiLoc)
    (hl : inSmiRange lengthLoc.value) (hi : inSmiRange indexLoc.value)
    (hnn : 0 ≤ lengthLoc.value) :
    CheckArrayBoundDeopts lengthLoc indexLoc = true ↔
      ¬ (0 ≤ indexLoc.value ∧ indexLoc.value < lengthLoc.value) := by
  rcases lengthLoc with l | l <;> rcases indexLoc with i | i <;>
    simp only [SmiLoc.value] at hl hi hnn ⊢ <;>
    unfold inSmiRange smiMin smiMax at hl hi <;>
    simp [CheckArrayBoundDeopts, condHolds, cmpFlags, smiTag, wrap64,
      toU64] <;>
    omega

/-- Witness for C2: index 3 against length 2 in registers takes the guard. -/
theorem CheckArrayBound_correct_witness :
    CheckArrayBoundDeopts (.reg 2) (.reg 3) = true := by
  have h := CheckArrayBound_correct (.reg 2) (.reg 3)
    (by decide) (by decide) (by decide)
  simp only [SmiLoc.value] at h
  rw [h]
  omega

/-- The store variants the emitter can produce for a store into a heap
object: the write-barrier-aware StoreIntoObject, or the no-barrier variant
with a register or an embedded-constant source. -/
inductive StoreKind where
  | storeIntoObject
  | noBarrierRegister
  | noBarrierConstant
deriving DecidableEq

/-- Tail of StoreInstanceFieldInstr::EmitNativeCode: the single store
emitted for the tagged-pointer case, chosen from the static
ShouldEmitStoreBarrier classification and whether the value location is an
embedded constant. -/
def StoreInstanceFieldStore (shouldEmitStoreBarrier valueIsConstant : Bool) :
    StoreKind :=
  if shouldEmitStoreBarrier then .storeIntoObject
  else if valueIsConstant then .noBarrierConstant
  else .noBarrierRegister

/-- The kArrayCid case of StoreIndexedInstr::EmitNativeCode: the single
store emitted for a tagged-array element store. -/
def StoreIndexedArrayStore (shouldEmitStoreBarrier valueIsConstant : Bool) :
    StoreKind :=
  if shouldEmitStoreBarrier then .storeIntoObject
  else if valueIsConstant then .noBarrierConstant
  else .noBarrierRegister

/-- Claim C6: for instance-field stores and tagged-array indexed stores, the
emitted code is a write-barrier-aware store exactly when the instruction's
static ShouldEmitStoreBarrier classification says so; the choice is a pure
function of compile-time data (the emitted fast path is one store with no
runtime selection between the variants). -/
theorem StoreBarrier_static_choice :
    ∀ shouldBarrier valueIsConstant : Bool,
      (StoreInstanceFieldStore shouldBarrier valueIsConstant =
          .storeIntoObject ↔ shouldBarrier = true) ∧
      (StoreIndexedArrayStore shouldBarrier valueIsConstant =
          .storeIntoObject ↔ shouldBarrier = true) := by
  decide

/-- A heap-allocated Double box; the payload is the raw 64-bit pattern of
the stored double (no interpretation: NaN payloads and signed zeros are
just bit patterns here). -/
structure DoubleBox where
  valueBits : Nat
deriving DecidableEq

/-- BoxDoubleInstr::EmitNativeCode: TryAllocate fast path or the
BoxDoubleSlowPath allocation call; both paths rejoin at the slow-path exit
label, after which StoreDFieldToOffset writes the raw 64 bits of the value
into the fresh box. -/
def BoxDouble (bits : Nat) (fastAllocationSucceeds : Bool) : DoubleBox :=
  let allocated : DoubleBox :=
    if fastAllocationSucceeds then { valueBits := 0 } else { valueBits := 0 }
  { allocated with valueBits := bits % 2 ^ 64 }

/-- UnboxDoubleInstr::EmitNativeCode when the value is statically known to
be a Double (value_cid == kDoubleCid): LoadDFieldFromOffset reads the raw
64 bits back. -/
def UnboxDoubleKnownDouble (box : DoubleBox) : Nat := box.valueBits

/-- Claim C5: boxing any 64-bit double pattern (via the fast bump allocation
or the slow-path allocation) and unboxing it on a value statically known to
be a double returns a bit-identical value; this covers 0.0, -0.0, every NaN
payload and the extreme finite magnitudes, which are all just 64-bit
patterns to the store/load pair. -/
theorem BoxUnboxDouble_roundtrip (bits : Nat) (fastAllocationSucceeds : Bool)
    (h : bits < 2 ^ 64) :
    UnboxDoubleKnownDouble (BoxDouble bits fastAllocationSucceeds) = bits := by
  unfold UnboxDoubleKnownDouble BoxDouble
  simp only []
  omega

/-- Witness for C5 at the canonical quiet-NaN pattern 0x7FF8000000000000,
with the slow allocation path. -/
theorem BoxUnboxDouble_roundtrip_witness :
    UnboxDoubleKnownDouble (BoxDouble 9221120237041090560 false) =
      9221120237041090560 :=
  BoxUnboxDouble_roundtrip 9221120237041090560 false (by decide)

/-- Truncation to a signed 8-bit value (the static_cast to int8_t applied
to the compile-time-clamped constant). -/
def int8cast (v : Int) : Int := (v + 128) % 256 - 128

/-- The low byte a one-byte store writes to memory. -/
def lowByte (v : Int) : Int := v % 256

/-- The constant-source path of the unsigned-clamped byte store in
StoreIndexedInstr::EmitNativeCode: clamp at compile time to [0, 255], load
the int8_t cast of it and store the byte. Returns the stored byte. -/
def StoreClampedByteConstant (v : Int) : Int :=
  let c := if v > 255 then 255 else if v < 0 then 0 else v
  lowByte (int8cast c)

/-- The register-source path of the unsigned-clamped byte store: untag,
one compare against 0xFF, a branch on LS straight to the store, otherwise
two conditional selects (0 on LE, 0xFF on GT) before the store. Returns the
stored byte. -/
def StoreClampedByteRegister (x : Int) : Int :=
  let v := asr (smiTag x) 1
  let f := cmpFlags v 255
  if condHolds .LS f then lowByte v
  else
    let v1 := if condHolds .LE f then 0 else v
    let v2 := if condHolds .GT f then 255 else v1
    lowByte v2

/-- Claim C7: for every Smi source value, the stored byte of an
unsigned-clamped byte store equals the source clamped to [0, 255], on both
the constant path (compile-time clamp) and the register path
(compare plus conditional selects). -/
theorem StoreClampedByte_correct (x : Int) (hx : inSmiRange x) :
    StoreClampedByteRegister x = max 0 (min 255 x) ∧
    StoreClampedByteConstant x = max 0 (min 255 x) := by
  unfold inSmiRange smiMin smiMax at hx
  constructor
  · have hv : asr (smiTag x) 1 = x := by
      unfold smiTag wrap64 asr
      omega
    simp only [StoreClampedByteRegister, hv, condHolds, cmpFlags, lowByte,
      toU64, wrap64]
    split_ifs <;>
      simp only [Bool.or_eq_true, Bool.and_eq_true, Bool.not_eq_true',
        bne_iff_ne, beq_iff_eq, decide_eq_true_eq, decide_eq_false_iff_not,
        ne_eq, decide_eq_decide] at * <;>
      omega
  · simp only [StoreClampedByteConstant, int8cast, lowByte]
    split_ifs <;> omega

/-- Witness for C7 at the specified sample: sources -5, 0, 200, 255, 300
store bytes 0, 0, 200, 255, 255 on both paths. -/
theorem StoreClampedByte_correct_witness :
    StoreClampedByteRegister (-5) = 0 ∧ StoreClampedByteConstant (-5) = 0 ∧
    StoreClampedByteRegister 0 = 0 ∧ StoreClampedByteConstant 0 = 0 ∧
    StoreClampedByteRegister 200 = 200 ∧
    StoreClampedByteConstant 200 = 200 ∧
    StoreClampedByteRegister 255 = 255 ∧
    StoreClampedByteConstant 255 = 255 ∧
    StoreClampedByteRegister 300 = 255 ∧
    StoreClampedByteConstant 300 = 255 := by
  refine ⟨?_, ?_, ?_, ?_, ?_, ?_, ?_, ?_, ?_, ?_⟩
  · rw [(StoreClampedByte_correct (-5) (by decide)).1]; decide
  · rw [(StoreClampedByte_correct (-5) (by decide)).2]; decide
  · rw [(StoreClampedByte_correct 0 (by decide)).1]; decide
  · rw [(StoreClampedByte_correct 0 (by decide)).2]; decide
  · rw [(StoreClampedByte_correct 200 (by decide)).1]; decide
  · rw [(StoreClampedByte_correct 200 (by decide)).2]; decide
  · rw [(StoreClampedByte_correct 255 (by decide)).1]; decide
  · rw [(StoreClampedByte_correct 255 (by decide)).2]; decide
  · rw [(StoreClampedByte_correct 300 (by decide)).1]; decide
  · rw [(StoreClampedByte_correct 300 (by decide)).2]; decide

/-- Element class ids whose LoadIndexedInstr result representation is
tagged. -/
inductive ClassId where
  | typedDataInt8Array
  | typedDataUint8Array
  | typedDataUint8ClampedArray
  | externalTypedDataUint8Array
  | externalTypedDataUint8ClampedArray
  | oneByteString
  | typedDataInt16Array
  | typedDataUint16Array
  | twoByteString
  | typedDataInt32Array
  | typedDataUint32Array
  | array
  | immutableArray
deriving DecidableEq

/-- The instructions the tagged-result tail of
LoadIndexedInstr::EmitNativeCode can emit. -/
inductive LoadStep where
  | ldrByte
  | ldrUnsignedByte
  | ldrHalfword
  | ldrUnsignedHalfword
  | ldrWord
  | ldrUnsignedWord
  | ldrDoubleWord
  | smiTagStep
  | compareImmediateStep
  | deoptBranch
deriving DecidableEq

/-- The tagged-result tail of LoadIndexedInstr::EmitNativeCode: one
width/signedness-specific load followed by SmiTag (plain ldr for object
arrays), exactly as the source switch emits it. -/
def LoadIndexedTaggedEmit : ClassId → List LoadStep
  | .typedDataInt8Array => [.ldrByte, .smiTagStep]
  | .typedDataUint8Array => [.ldrUnsignedByte, .smiTagStep]
  | .typedDataUint8ClampedArray => [.ldrUnsignedByte, .smiTagStep]
  | .externalTypedDataUint8Array => [.ldrUnsignedByte, .smiTagStep]
  | .externalTypedDataUint8ClampedArray => [.ldrUnsignedByte, .smiTagStep]
  | .oneByteString => [.ldrUnsignedByte, .smiTagStep]
  | .typedDataInt16Array => [.ldrHalfword, .smiTagStep]
  | .typedDataUint16Array => [.ldrUnsignedHalfword, .smiTagStep]
  | .twoByteString => [.ldrUnsignedHalfword, .smiTagStep]
  | .typedDataInt32Array => [.ldrWord, .smiTagStep]
  | .typedDataUint32Array => [.ldrUnsignedWord, .smiTagStep]
  | .array => [.ldrDoubleWord]
  | .immutableArray => [.ldrDoubleWord]

/-- Value computed by the unsigned 32-bit element load: a zero-extending
word load into the result register, then SmiTag. -/
def LoadIndexedUint32Result (w : Nat) : Int := smiTag (w : Int)

/-- Counterexample to C8 as stated: the code emitted for a
kTypedDataUint32ArrayCid load is exactly the zero-extending word load
followed by SmiTag — it contains no value-range check and no branch to a
deopt guard. -/
theorem LoadIndexedUint32_no_range_check :
    LoadIndexedTaggedEmit .typedDataUint32Array =
      [.ldrUnsignedWord, .smiTagStep] ∧
    (.deoptBranch ∈ LoadIndexedTaggedEmit .typedDataUint32Array → False) ∧
    (.compareImmediateStep ∈ LoadIndexedTaggedEmit .typedDataUint32Array →
      False) := by
  decide

/-- Claim C8 (amended): on this 64-bit target no value-range check or deopt
guard is emitted for an unsigned 32-bit element load, and none is needed:
every zero-extended 32-bit value fits the tagged small-integer range, so
re-tagging is exact and never truncates. -/
theorem LoadIndexedUint32_retag_lossless (w : Nat) (h : w < 2 ^ 32) :
    LoadIndexedUint32Result w = 2 * (w : Int) ∧ inSmiRange (w : Int) := by
  unfold LoadIndexedUint32Result smiTag wrap64 inSmiRange smiMin smiMax
  omega

/-- Witness for amended C8 at the largest unsigned 32-bit value. -/
theorem LoadIndexedUint32_retag_lossless_witness :
    LoadIndexedUint32Result 4294967295 = 2 * (4294967295 : Int) ∧
    inSmiRange ((4294967295 : Nat) : Int) :=
  LoadIndexedUint32_retag_lossless 4294967295 (by decide)

lemma wrap64_eq_self {v : Int} (h1 : -(2 ^ 63) ≤ v) (h2 : v < 2 ^ 63) :
    wrap64 v = v := by
  unfold wrap64
  omega

lemma wrap64_eq_iff {v : Int} : wrap64 v = v ↔ -(2 ^ 63) ≤ v ∧ v < 2 ^ 63 := by
  unfold wrap64
  omega

lemma smiTag_eq {v : Int} (h : inSmiRange v) : smiTag v = 2 * v := by
  unfold inSmiRange smiMin smiMax at h
  unfold smiTag wrap64
  omega

/-- The smulh/cmp/b.ne overflow protocol: the upper product half equals the
sign-extension of the lower half exactly when the full product fits in a
signed 64-bit register. -/
lemma smulh_signext (a b : Int) :
    smulh a b = asr (wrap64 (a * b)) 63 ↔
      -(2 ^ 63) ≤ a * b ∧ a * b < 2 ^ 63 := by
  unfold smulh asr wrap64
  generalize a * b = p
  omega

/-- The three checked BinarySmiOp operators of interest. -/
inductive SmiOp where
  | add | sub | mul
deriving DecidableEq

/-- The mathematical meaning of each operator. -/
def SmiOp.denote : SmiOp → Int → Int → Int
  | .add, x, y => x + y
  | .sub, x, y => x - y
  | .mul, x, y => x * y

/-- BinarySmiOpInstr::EmitNativeCode for checked (deopt-present,
non-truncating) kADD, kSUB and kMUL, with the right operand either an
embedded Smi constant or a register. Registers hold the tagged values.
kADD/kSUB: adds/subs (or AddImmediateSetFlags/SubImmediateSetFlags) then
b(deopt, VS). kMUL register: untag left, mul + smulh, compare the high half
with the sign-extended low half, b(deopt, NE). kMUL constant 2: lsl by 1
and compare sign words. kMUL other constant: mul + smulh on the tagged left
and the untagged constant. Returns none when the deopt guard is taken,
otherwise the tagged result register value. -/
def BinarySmiOpChecked (op : SmiOp) (rightIsConstant : Bool) (x y : Int) :
    Option Int :=
  let left := smiTag x
  match op with
  | .add =>
      let right := smiTag y
      let result := wrap64 (left + right)
      if result = left + right then some result else none
  | .sub =>
      let right := smiTag y
      let result := wrap64 (left - right)
      if result = left - right then some result else none
  | .mul =>
      if rightIsConstant then
        if y = 2 then
          let sign := asr left 63
          let result := wrap64 (left * 2)
          if asr result 63 = sign then some result else none
        else
          let result := wrap64 (left * y)
          if smulh left y = asr result 63 then some result else none
      else
        let untaggedLeft := asr left 1
        let right := smiTag y
        let result := wrap64 (untaggedLeft * right)
        if smulh untaggedLeft right = asr result 63 then some result
        else none

/-- Claim C1: for every pair of Smis, checked addition, subtraction and
multiplication either produce the mathematically correct tagged result
(exactly when the mathematical result is representable) or take the
overflow deopt guard — never a silently wrapped incorrect tagged value. -/
theorem BinarySmiOpChecked_correct (op : SmiOp) (rightIsConstant : Bool)
    (x y : Int) (hx : inSmiRange x) (hy : inSmiRange y) :
    BinarySmiOpChecked op rightIsConstant x y =
      if inSmiRange (op.denote x y) then some (smiTag (op.denote x y))
      else none := by
  have hx' := hx
  have hy' := hy
  unfold inSmiRange smiMin smiMax at hx' hy'
  have htx : smiTag x = 2 * x := smiTag_eq hx
  have hty : smiTag y = 2 * y := smiTag_eq hy
  cases op with
  | add =>
    simp only [BinarySmiOpChecked, SmiOp.denote, htx, hty]
    by_cases h : inSmiRange (x + y)
    · have hb := h
      unfold inSmiRange smiMin smiMax at hb
      have hw : wrap64 (2 * x + 2 * y) = 2 * x + 2 * y :=
        wrap64_eq_self (by omega) (by omega)
      rw [if_pos hw, if_pos h, hw, smiTag_eq h]
      congr 1
      ring
    · have hb := h
      unfold inSmiRange smiMin smiMax at hb
      have hw : ¬ wrap64 (2 * x + 2 * y) = 2 * x + 2 * y := by
        rw [wrap64_eq_iff]
        omega
      rw [if_neg hw, if_neg h]
  | sub =>
    simp only [BinarySmiOpChecked, SmiOp.denote, htx, hty]
    by_cases h : inSmiRange (x - y)
    · have hb := h
      unfold inSmiRange smiMin smiMax at hb
      have hw : wrap64 (2 * x - 2 * y) = 2 * x - 2 * y :=
        wrap64_eq_self (by omega) (by omega)
      rw [if_pos hw, if_pos h, hw, smiTag_eq h]
      congr 1
      ring
    · have hb := h
      unfold inSmiRange smiMin smiMax at hb
      have hw : ¬ wrap64 (2 * x - 2 * y) = 2 * x - 2 * y := by
        rw [wrap64_eq_iff]
        omega
      rw [if_neg hw, if_neg h]
  | mul =>
    cases rightIsConstant with
    | false =>
      simp only [BinarySmiOpChecked, SmiOp.denote, htx, hty]
      rw [if_neg Bool.false_ne_true]
      have hul : asr (2 * x) 1 = x := by
        unfold asr
        omega
      have hp : x * (2 * y) = 2 * (x * y) := by ring
      have hiff := smulh_signext x (2 * y)
      rw [hp] at hiff
      simp only [hul, hp]
      by_cases h : inSmiRange (x * y)
      · have hb := h
        unfold inSmiRange smiMin smiMax at hb
        have hcond : smulh x (2 * y) = asr (wrap64 (2 * (x * y))) 63 :=
          hiff.mpr (by omega)
        rw [if_pos hcond, if_pos h]
        unfold smiTag
        rfl
      · have hb := h
        unfold inSmiRange smiMin smiMax at hb
        have hcond : ¬ smulh x (2 * y) = asr (wrap64 (2 * (x * y))) 63 := by
          rw [hiff]
          omega
        rw [if_neg hcond, if_neg h]
    | true =>
      by_cases hy2 : y = 2
      · subst hy2
        simp only [BinarySmiOpChecked, SmiOp.denote, htx]
        rw [if_pos trivial, if_pos trivial]
        have hcond : asr (wrap64 (2 * x * 2)) 63 = asr (2 * x) 63 ↔
            inSmiRange (x * 2) := by
          unfold asr wrap64 inSmiRange smiMin smiMax
          omega
        by_cases h : inSmiRange (x * 2)
        · rw [if_pos (hcond.mpr h), if_pos h, smiTag_eq h]
          rw [show wrap64 (2 * x * 2) = wrap64 (2 * (x * 2)) by ring_nf]
          have hb := h
          unfold inSmiRange smiMin smiMax at hb
          rw [wrap64_eq_self (by omega) (by omega)]
        · rw [if_neg (fun hc => h (hcond.mp hc)), if_neg h]
      · simp only [BinarySmiOpChecked, SmiOp.denote, htx]
        rw [if_pos trivial, if_neg hy2]
        have hp : 2 * x * y = 2 * (x * y) := by ring
        have hiff := smulh_signext (2 * x) y
        rw [hp] at hiff
        simp only [hp]
        by_cases h : inSmiRange (x * y)
        · have hb := h
          unfold inSmiRange smiMin smiMax at hb
          have hcond : smulh (2 * x) y = asr (wrap64 (2 * (x * y))) 63 :=
            hiff.mpr (by omega)
          rw [if_pos hcond, if_pos h]
          unfold smiTag
          rfl
        · have hb := h
          unfold inSmiRange smiMin smiMax at hb
          have hcond :
              ¬ smulh (2 * x) y = asr (wrap64 (2 * (x * y))) 63 := by
            rw [hiff]
            omega
          rw [if_neg hcond, if_neg h]

/-- Witness for C1: 3 * 5 in registers produces the tagged 15. -/
theorem BinarySmiOpChecked_correct_witness :
    BinarySmiOpChecked .mul false 3 5 = some 30 := by
  have h := BinarySmiOpChecked_correct .mul false 3 5 (by decide) (by decide)
  rw [h]
  decide

lemma tmod_neg_left (a b : Int) : (-a).tmod b = -(a.tmod b) := by
  rw [Int.tmod_def, Int.tmod_def, Int.neg_tdiv]
  ring

lemma tmod_bounds (a b : Int) (hb : b ≠ 0) :
    -(b.natAbs : Int) < a.tmod b ∧ a.tmod b < (b.natAbs : Int) := by
  have key : ∀ (w c : Int), 0 < c → -c < w.tmod c ∧ w.tmod c < c := by
    intro w c hc
    rcases le_or_lt 0 w with hw | hw
    · have h1 := Int.tmod_nonneg c hw
      have h2 := Int.tmod_lt_of_pos w hc
      omega
    · have h1 := tmod_neg_left w c
      have h2 := Int.tmod_nonneg c (show (0 : Int) ≤ -w by omega)
      have h3 := Int.tmod_lt_of_pos (-w) hc
      omega
  rcases lt_trichotomy b 0 with h | h | h
  · have hc : (0 : Int) < -b := by omega
    have hk := key a (-b) hc
    have heq : a.tmod (-b) = a.tmod b := Int.tmod_neg a b
    have habs : (b.natAbs : Int) = -b := by omega
    omega
  · exact absurd h hb
  · have hk := key a b h
    have habs : (b.natAbs : Int) = b := by omega
    omega

lemma tdiv_natAbs_le (a b : Int) : (a.tdiv b).natAbs ≤ a.natAbs := by
  have h : (a.tdiv b).natAbs = a.natAbs / b.natAbs := Int.natAbs_tdiv a b
  rw [h]
  exact Nat.div_le_self _ _

/-- The only quotient the min-Smi check can fire on: the truncating quotient
of two Smis equals 2^62 exactly for smiMin divided by -1. -/
lemma tdiv_eq_pow62_iff (x y : Int) (hx : inSmiRange x) (hy0 : y ≠ 0) :
    x.tdiv y = 2 ^ 62 ↔ x = smiMin ∧ y = -1 := by
  unfold inSmiRange smiMin smiMax at hx
  constructor
  · intro h
    have h1 : (x.tdiv y).natAbs = x.natAbs / y.natAbs := Int.natAbs_tdiv x y
    have h2 : x.natAbs / y.natAbs = 2 ^ 62 := by
      rw [← h1, h]
      decide
    have h3 : x.natAbs / y.natAbs * y.natAbs ≤ x.natAbs :=
      Nat.div_mul_le_self _ _
    rw [h2] at h3
    have h4 : y = 1 ∨ y = -1 := by omega
    rcases h4 with rfl | rfl
    · rw [Int.tdiv_one] at h
      exact absurd h (by omega)
    · have h6 : x.tdiv (-1) = -x := by
        rw [show (-1 : Int) = -(1 : Int) by norm_num, Int.tdiv_neg,
          Int.tdiv_one]
      rw [h6] at h
      refine ⟨?_, rfl⟩
      unfold smiMin
      omega
  · rintro ⟨rfl, rfl⟩
    have h6 : smiMin.tdiv (-1) = -smiMin := by
      rw [show (-1 : Int) = -(1 : Int) by norm_num, Int.tdiv_neg,
        Int.tdiv_one]
    rw [h6]
    unfold smiMin
    norm_num

/-- The kTRUNCDIV register path of BinarySmiOpInstr::EmitNativeCode:
optional divide-by-zero check (emitted whenever range analysis cannot
exclude zero, modelled by mayBeZero) branching to the guard on EQ, untag
both operands, sdiv, compare the quotient against 2^62 (the single
non-representable case) branching to the guard on EQ, then re-tag.
Returns none when a guard is taken, otherwise the tagged quotient. -/
def TruncDivEmit (mayBeZero : Bool) (x y : Int) : Option Int :=
  if mayBeZero ∧ smiTag y = 0 then none
  else
    let temp := asr (smiTag x) 1
    let tmp := asr (smiTag y) 1
    let result := sdiv64 temp tmp
    if result = 2 ^ 62 then none
    else some (smiTag result)

/-- The kMOD register path of BinarySmiOpInstr::EmitNativeCode: optional
divide-by-zero check, untag both operands, sdiv, msub to recover the
truncated remainder, re-tag, then normalize a negative remainder by adding
or subtracting the (tagged) divisor chosen by one compare and a
conditional select. Returns none when the guard is taken, otherwise the
tagged normalized remainder. -/
def ModEmit (mayBeZero : Bool) (x y : Int) : Option Int :=
  if mayBeZero ∧ smiTag y = 0 then none
  else
    let temp := asr (smiTag x) 1
    let tmp := asr (smiTag y) 1
    let q := sdiv64 temp tmp
    let result := smiTag (wrap64 (temp - tmp * q))
    if result < 0 then
      if smiTag y < 0 then some (wrap64 (result - smiTag y))
      else some (wrap64 (result + smiTag y))
    else some result

/-- Claim C3 (amended): divisor zero always reaches the emitted zero check
(the check is present whenever zero is possible) and takes the guard before
any divide executes; smiMin divided by -1 takes the guard; otherwise
kTRUNCDIV produces the tagged truncating quotient q = x.tdiv y — which is
representable and satisfies x = y*q + r for the truncated remainder r with
natAbs r < natAbs y — and kMOD produces a tagged remainder m with
0 ≤ m < natAbs y and x = y*k + m for an integer quotient k. -/
theorem SmiTruncDivMod_correct (mayBeZero : Bool) (x y : Int)
    (hx : inSmiRange x) (hy : inSmiRange y)
    (hrange : mayBeZero = false → y ≠ 0) :
    (y = 0 → mayBeZero = true ∧ TruncDivEmit mayBeZero x y = none ∧
      ModEmit mayBeZero x y = none) ∧
    (x = smiMin → y = -1 → TruncDivEmit mayBeZero x y = none) ∧
    (y ≠ 0 → ¬(x = smiMin ∧ y = -1) →
      TruncDivEmit mayBeZero x y = some (smiTag (x.tdiv y)) ∧
      inSmiRange (x.tdiv y) ∧
      x = y * x.tdiv y + x.tmod y ∧
      (x.tmod y).natAbs < y.natAbs) ∧
    (y ≠ 0 → ∃ m k : Int,
      ModEmit mayBeZero x y = some (smiTag m) ∧ 0 ≤ m ∧
      m < (y.natAbs : Int) ∧ x = y * k + m) := by
  have hx' := hx
  have hy' := hy
  unfold inSmiRange smiMin smiMax at hx' hy'
  have htx : smiTag x = 2 * x := smiTag_eq hx
  have hty : smiTag y = 2 * y := smiTag_eq hy
  have hax : asr (2 * x) 1 = x := by
    unfold asr
    omega
  have hay : asr (2 * y) 1 = y := by
    unfold asr
    omega
  refine ⟨?_, ?_, ?_, ?_⟩
  · intro h0
    subst h0
    have hmz : mayBeZero = true := by
      cases mayBeZero
      · exact absurd rfl (hrange rfl)
      · rfl
    subst hmz
    have hz : smiTag (0 : Int) = 0 := by decide
    refine ⟨rfl, ?_, ?_⟩
    · simp [TruncDivEmit, hz]
    · simp [ModEmit, hz]
  · intro h1 h2
    subst h1
    subst h2
    have hz : ¬ (mayBeZero ∧ smiTag (-1 : Int) = 0) := by
      rintro ⟨-, hc⟩
      revert hc
      decide
    simp only [TruncDivEmit, if_neg hz]
    have hc : sdiv64 (asr (smiTag smiMin) 1) (asr (smiTag (-1 : Int)) 1) =
        2 ^ 62 := by decide
    rw [hc, if_pos rfl]
  · intro hy0 hnot
    have hq := Int.tdiv_add_tmod x y
    have hbnd := tmod_bounds x y hy0
    have hqle := tdiv_natAbs_le x y
    have hq62 : x.tdiv y ≠ 2 ^ 62 := fun hc =>
      hnot ((tdiv_eq_pow62_iff x y hx hy0).mp hc)
    have hqrange : inSmiRange (x.tdiv y) := by
      unfold inSmiRange smiMin smiMax
      omega
    have hqr := hqrange
    unfold inSmiRange smiMin smiMax at hqr
    have hz : ¬ (mayBeZero = true ∧ 2 * y = 0) := by
      rintro ⟨-, hc⟩
      omega
    have hs : sdiv64 x y = x.tdiv y := by
      unfold sdiv64
      rw [if_neg hy0]
      exact wrap64_eq_self (by omega) (by omega)
    simp only [TruncDivEmit, htx, hty, hax, hay, hs]
    rw [if_neg hz, if_neg hq62]
    refine ⟨rfl, hqrange, by linarith, by omega⟩
  · intro hy0
    have hq := Int.tdiv_add_tmod x y
    have hbnd := tmod_bounds x y hy0
    have hqle := tdiv_natAbs_le x y
    have hz : ¬ (mayBeZero = true ∧ 2 * y = 0) := by
      rintro ⟨-, hc⟩
      omega
    have hs : sdiv64 x y = x.tdiv y := by
      unfold sdiv64
      rw [if_neg hy0]
      exact wrap64_eq_self (by omega) (by omega)
    have hrem : wrap64 (x - y * x.tdiv y) = x.tmod y := by
      rw [show x - y * x.tdiv y = x.tmod y by linarith]
      exact wrap64_eq_self (by omega) (by omega)
    have hremrange : inSmiRange (x.tmod y) := by
      unfold inSmiRange smiMin smiMax
      omega
    have h5 : smiTag (x.tmod y) = 2 * x.tmod y := smiTag_eq hremrange
    simp only [ModEmit, htx, hty, hax, hay, hs, hrem, h5]
    rw [if_neg hz]
    by_cases hr : 2 * x.tmod y < 0
    · rw [if_pos hr]
      by_cases hyneg : 2 * y < 0
      · rw [if_pos hyneg]
        refine ⟨x.tmod y - y, x.tdiv y + 1, ?_, by omega, by omega,
          by linarith⟩
        rw [smiTag_eq (by unfold inSmiRange smiMin smiMax; omega)]
        rw [show 2 * x.tmod y - 2 * y = 2 * (x.tmod y - y) by ring]
        rw [wrap64_eq_self (by omega) (by omega)]
      · rw [if_neg hyneg]
        refine ⟨x.tmod y + y, x.tdiv y - 1, ?_, by omega, by omega,
          by linarith⟩
        rw [smiTag_eq (by unfold inSmiRange smiMin smiMax; omega)]
        rw [show 2 * x.tmod y + 2 * y = 2 * (x.tmod y + y) by ring]
        rw [wrap64_eq_self (by omega) (by omega)]
    · rw [if_neg hr]
      refine ⟨x.tmod y, x.tdiv y, ?_, by omega, by omega, by linarith⟩
      rw [h5]

/-- Witness for amended C3: 7 divided by 2 gives quotient 3 and the
verified truncation properties. -/
theorem SmiTruncDivMod_correct_witness :
    TruncDivEmit true 7 2 = some (smiTag (Int.tdiv 7 2)) ∧
    inSmiRange (Int.tdiv 7 2) ∧
    (7 : Int) = 2 * Int.tdiv 7 2 + Int.tmod 7 2 ∧
    (Int.tmod 7 2).natAbs < (2 : Int).natAbs :=
  (SmiTruncDivMod_correct true 7 2 (by decide) (by decide)
    (fun h => absurd h (by decide))).2.2.1 (by decide) (by decide)

/-- Counterexample to C3 as stated: at dividend -7 and divisor 2 neither
instruction deoptimizes, the emitted kTRUNCDIV quotient is -3 and the
emitted kMOD remainder is the non-negative 1, yet
-7 is not equal to 2 * (-3) + 1. -/
theorem SmiTruncDivMod_counterexample :
    TruncDivEmit true (-7) 2 = some (smiTag (-3)) ∧
    ModEmit true (-7) 2 = some (smiTag 1) ∧
    ¬ ((-7 : Int) = 2 * (-3) + 1) := by
  decide

end Arm64IL
